import Mathlib

/-!
Verification of the napari-training-course lesson scripts.

The lessons are linear notebook scripts that load microscopy images, display
them as viewer layers, and run thresholding / morphological cleanup /
marker-controlled watershed segmentation on the raw arrays.  This file embeds
the operations those scripts perform:

* the interactive threshold widget of lessons/02_interactive_analysis.py,
  translated directly from its source;
* the signal-per-unit-area loop of lessons/01_manual_annotation.py,
  translated directly from its source;
* the mask-cleaning, connected-component labelling and watershed steps, whose
  implementations live in the external scikit-image / scipy libraries and are
  therefore modelled from the specification on an abstract finite pixel graph;
* the viewer layer list and the label save / reload round trip, whose
  implementations live in the external napari library and are likewise
  modelled from the specification.

Images are embedded as lists of rational intensities (the lessons feed numpy
arrays whose arithmetic here is exact), masks as boolean pixel predicates,
and label arrays as natural-number valued pixel maps.
-/

namespace NapariLessons

/-! ## Arrays of intensities: min and max

numpy arr.min() / arr.max() over a nonempty array; the empty array is given
the junk value 0 (numpy raises there, and every statement that needs it
carries a nonemptiness hypothesis or is insensitive to the value). -/

def arrMin : List ℚ → ℚ
  | [] => 0
  | x :: xs => xs.foldl min x

def arrMax : List ℚ → ℚ
  | [] => 0
  | x :: xs => xs.foldl max x

lemma foldl_min_le_init (xs : List ℚ) (a : ℚ) : xs.foldl min a ≤ a := by
  induction xs generalizing a with
  | nil => exact le_refl a
  | cons y ys ih =>
    calc (y :: ys).foldl min a = ys.foldl min (min a y) := rfl
    _ ≤ min a y := ih (min a y)
    _ ≤ a := min_le_left a y

lemma foldl_min_le_mem (xs : List ℚ) (a y : ℚ) (hy : y ∈ xs) :
    xs.foldl min a ≤ y := by
  induction xs generalizing a with
  | nil => cases hy
  | cons z zs ih =>
    rcases List.mem_cons.mp hy with h | h
    · subst h
      calc (y :: zs).foldl min a = zs.foldl min (min a y) := rfl
      _ ≤ min a y := foldl_min_le_init zs (min a y)
      _ ≤ y := min_le_right a y
    · exact ih (min a z) h

lemma init_le_foldl_max (xs : List ℚ) (a : ℚ) : a ≤ xs.foldl max a := by
  induction xs generalizing a with
  | nil => exact le_refl a
  | cons y ys ih =>
    calc a ≤ max a y := le_max_left a y
    _ ≤ ys.foldl max (max a y) := ih (max a y)
    _ = (y :: ys).foldl max a := rfl

lemma mem_le_foldl_max (xs : List ℚ) (a y : ℚ) (hy : y ∈ xs) :
    y ≤ xs.foldl max a := by
  induction xs generalizing a with
  | nil => cases hy
  | cons z zs ih =>
    rcases List.mem_cons.mp hy with h | h
    · subst h
      calc y ≤ max a y := le_max_right a y
      _ ≤ zs.foldl max (max a y) := init_le_foldl_max zs (max a y)
      _ = (y :: zs).foldl max a := rfl
    · exact ih (max a z) h

lemma arrMin_le_mem (data : List ℚ) (x : ℚ) (hx : x ∈ data) :
    arrMin data ≤ x := by
  cases data with
  | nil => cases hx
  | cons y ys =>
    rcases List.mem_cons.mp hx with h | h
    · subst h; exact foldl_min_le_init ys x
    · exact foldl_min_le_mem ys y x h

lemma mem_le_arrMax (data : List ℚ) (x : ℚ) (hx : x ∈ data) :
    x ≤ arrMax data := by
  cases data with
  | nil => cases hx
  | cons y ys =>
    rcases List.mem_cons.mp hx with h | h
    · subst h; exact init_le_foldl_max ys x
    · exact mem_le_foldl_max ys y x h

lemma arrMin_le_arrMax (data : List ℚ) : arrMin data ≤ arrMax data := by
  cases data with
  | nil => exact le_refl 0
  | cons y ys =>
    calc arrMin (y :: ys) = ys.foldl min y := rfl
    _ ≤ y := foldl_min_le_init ys y
    _ ≤ ys.foldl max y := init_le_foldl_max ys y
    _ = arrMax (y :: ys) := rfl

/-! ## The interactive threshold widget

Translated from lessons/02_interactive_analysis.py:

  def threshold(layer, percentile = 50):
      data_min = layer.data.min()
      data_max = layer.data.max()
      return layer.data > data_min + percentile / 100 * (data_max - data_min)
-/

/-- The scalar cutoff computed inside the widget body:
data_min + percentile / 100 * (data_max - data_min). -/
def thresholdVal (data : List ℚ) (percentile : ℚ) : ℚ :=
  arrMin data + percentile / 100 * (arrMax data - arrMin data)

/-- The threshold widget of lessons/02_interactive_analysis.py: the boolean
mask of pixels strictly greater than the cutoff. -/
def threshold (data : List ℚ) (percentile : ℚ) : List Bool :=
  data.map (fun x => decide (thresholdVal data percentile < x))

/-- The foreground segmentation step of lessons/02_interactive_analysis.py,
line 125: foreground = nuclei_mip >= filters.threshold_li(nuclei_mip).
The scalar threshold function (threshold_li there) is an argument: the
lesson applies a fixed, automatically computed scalar to the whole array. -/
def segment_foreground (thr : List ℚ → ℚ) (data : List ℚ) : List Bool :=
  data.map (fun x => decide (thr data ≤ x))

/-- Follows the spec words for claim C1 only, to be compared with the source
definition: the 50th percentile of the intensity distribution, i.e. the
median of the sorted sample, with midpoint interpolation for an even number
of samples. -/
def percentile50 (data : List ℚ) : ℚ :=
  let s := data.insertionSort (fun a b => a ≤ b)
  if data.length % 2 = 1 then s.getD (data.length / 2) 0
  else (s.getD (data.length / 2 - 1) 0 + s.getD (data.length / 2) 0) / 2

/-- A concrete bimodal-leaning intensity sample used to separate the widget
cutoff from the distribution percentile. -/
def dataC1 : List ℚ := [0, 0, 3, 4, 6, 10]

/-! ## The signal-per-unit-area loop

Translated from lessons/01_manual_annotation.py:

  n_labels = viewer.layers[..].data.max()
  ratios = []
  for label_id in range(n_labels):
      inside_pixels = data == label_id
      area = inside_pixels.sum()
      signal = mip_data[inside_pixels].sum()
      ratios.append(signal / area)
-/

/-- numpy data.max() over an integer label array (0 on the empty array). -/
def maxLabel : List ℕ → ℕ
  | [] => 0
  | x :: xs => xs.foldl max x

/-- One iteration body of the ratios loop: total signal over the pixels of
one label id divided by their count. -/
def ratioFor (labels : List ℕ) (img : List ℚ) (id : ℕ) : ℚ :=
  (((labels.zip img).filter (fun p => p.1 == id)).map (fun p => p.2)).sum /
    (((labels.filter (fun x => x == id)).length : ℚ))

/-- The ratios loop itself: a fold that appends one ratio per iteration of
for label_id in range(n_labels). -/
def ratiosLoop (labels : List ℕ) (img : List ℚ) : List ℚ :=
  (List.range (maxLabel labels)).foldl
    (fun acc id => acc ++ [ratioFor labels img id]) []

lemma foldl_append_eq_map (f : ℕ → ℚ) (l : List ℕ) (acc : List ℚ) :
    l.foldl (fun a i => a ++ [f i]) acc = acc ++ l.map f := by
  induction l generalizing acc with
  | nil => simp
  | cons x xs ih => simp [List.foldl_cons, ih]

lemma foldl_min_mem (xs : List ℚ) (a : ℚ) :
    xs.foldl min a = a ∨ xs.foldl min a ∈ xs := by
  induction xs generalizing a with
  | nil => exact Or.inl rfl
  | cons y ys ih =>
    have hstep : (y :: ys).foldl min a = ys.foldl min (min a y) := rfl
    rcases ih (min a y) with h | h
    · rcases min_cases a y with ⟨he, _⟩ | ⟨he, _⟩
      · exact Or.inl (by rw [hstep, h, he])
      · exact Or.inr (by rw [hstep, h, he]; exact List.mem_cons_self y ys)
    · exact Or.inr (List.mem_cons_of_mem y (hstep ▸ h))

lemma foldl_max_mem (xs : List ℚ) (a : ℚ) :
    xs.foldl max a = a ∨ xs.foldl max a ∈ xs := by
  induction xs generalizing a with
  | nil => exact Or.inl rfl
  | cons y ys ih =>
    have hstep : (y :: ys).foldl max a = ys.foldl max (max a y) := rfl
    rcases ih (max a y) with h | h
    · rcases max_cases a y with ⟨he, _⟩ | ⟨he, _⟩
      · exact Or.inl (by rw [hstep, h, he])
      · exact Or.inr (by rw [hstep, h, he]; exact List.mem_cons_self y ys)
    · exact Or.inr (List.mem_cons_of_mem y (hstep ▸ h))

lemma arrMin_mem (data : List ℚ) (h : data ≠ []) : arrMin data ∈ data := by
  cases data with
  | nil => exact absurd rfl h
  | cons y ys =>
    rcases foldl_min_mem ys y with he | he
    · simp [arrMin, he]
    · exact List.mem_cons_of_mem y (by simpa [arrMin] using he)

lemma arrMax_mem (data : List ℚ) (h : data ≠ []) : arrMax data ∈ data := by
  cases data with
  | nil => exact absurd rfl h
  | cons y ys =>
    rcases foldl_max_mem ys y with he | he
    · simp [arrMax, he]
    · exact List.mem_cons_of_mem y (by simpa [arrMax] using he)

/-! ## Claims C1, C7, C9, C10 -/

/-- Claim C1, counterexample.  The widget thresholds at
data_min + 50 / 100 * (data_max - data_min), the midpoint of the intensity
range, which is not the 50th percentile of the intensity distribution: on
the sample dataC1 the widget mask differs from the mask cut at the median,
whichever comparison direction the percentile partition uses. -/
theorem threshold_percentile50_counterexample :
    threshold dataC1 50 ≠ dataC1.map (fun x => decide (percentile50 dataC1 ≤ x)) ∧
    threshold dataC1 50 ≠ dataC1.map (fun x => decide (percentile50 dataC1 < x)) := by
  have h1 : threshold dataC1 50 = [false, false, false, false, true, true] := by
    norm_num [threshold, thresholdVal, dataC1, arrMin, arrMax]
  have h2 : percentile50 [(0 : ℚ), 0, 3, 4, 6, 10] = 7 / 2 := by
    norm_num [percentile50, List.insertionSort, List.orderedInsert]
  constructor
  · rw [h1]
    norm_num [dataC1, h2]
  · rw [h1]
    norm_num [dataC1, h2]

/-- Claim C1, amended.  At percentile 50 the widget cuts at the midpoint of
the min and max intensities, so on a purely bimodal volume whose pixels take
exactly two values a < b the mask marks exactly the pixels of the brighter
mode: the foreground/background partition matches the two-mode ground truth
exactly. -/
theorem threshold_bimodal_midrange_partition (data : List ℚ) (a b : ℚ)
    (hab : a < b) (ha : a ∈ data) (hb : b ∈ data)
    (hbi : ∀ x ∈ data, x = a ∨ x = b) :
    threshold data 50 = data.map (fun x => decide (x = b)) := by
  have hne : data ≠ [] := by
    intro h; rw [h] at ha; cases ha
  have hmin : arrMin data = a := by
    rcases hbi (arrMin data) (arrMin_mem data hne) with h | h
    · exact h
    · exact absurd (h ▸ arrMin_le_mem data a ha) (not_le.mpr hab)
  have hmax : arrMax data = b := by
    rcases hbi (arrMax data) (arrMax_mem data hne) with h | h
    · exact absurd (h ▸ mem_le_arrMax data b hb) (not_le.mpr hab)
    · exact h
  have hval : thresholdVal data 50 = (a + b) / 2 := by
    rw [thresholdVal, hmin, hmax]; ring
  unfold threshold
  refine List.map_congr_left (fun x hx => ?_)
  rw [hval]
  rcases hbi x hx with h | h
  · subst h
    have h1 : ¬((x + b) / 2 < x) := by linarith
    have h2 : x ≠ b := ne_of_lt hab
    simp [h1, h2]
  · subst h
    have h1 : (a + x) / 2 < x := by linarith
    simp [h1]

/-- Claim C1, witness for the amended theorem at the concrete two-valued
volume [0, 10, 0, 10]. -/
theorem threshold_bimodal_midrange_partition_witness :
    ((0 : ℚ) < 10 ∧ (0 : ℚ) ∈ [(0 : ℚ), 10, 0, 10] ∧ (10 : ℚ) ∈ [(0 : ℚ), 10, 0, 10] ∧
      ∀ x ∈ [(0 : ℚ), 10, 0, 10], x = 0 ∨ x = 10) ∧
    threshold [(0 : ℚ), 10, 0, 10] 50 =
      ([(0 : ℚ), 10, 0, 10]).map (fun x => decide (x = 10)) := by
  refine ⟨⟨by norm_num, by norm_num, by norm_num, by intro x hx; simp at hx; tauto⟩, ?_⟩
  exact threshold_bimodal_midrange_partition [(0 : ℚ), 10, 0, 10] 0 10 (by norm_num)
    (by norm_num) (by norm_num)
    (by intro x hx; simp at hx; tauto)

/-- Claim C7.  Foreground segmentation is deterministic: both the automatic
scalar-threshold segmentation and the widget threshold are pure functions of
the image data (and the percentile), so identical inputs give identical
masks, with no retry semantics or hidden state. -/
theorem segment_foreground_deterministic (thr : List ℚ → ℚ)
    (d1 d2 : List ℚ) (p1 p2 : ℚ) (hd : d1 = d2) (hp : p1 = p2) :
    segment_foreground thr d1 = segment_foreground thr d2 ∧
    threshold d1 p1 = threshold d2 p2 := by
  subst hd; subst hp; exact ⟨rfl, rfl⟩

/-- Claim C7, witness at a concrete image and percentile. -/
theorem segment_foreground_deterministic_witness :
    (([(1 : ℚ), 2] = [(1 : ℚ), 2]) ∧ ((50 : ℚ) = 50)) ∧
    segment_foreground arrMax [(1 : ℚ), 2] = segment_foreground arrMax [(1 : ℚ), 2] ∧
    threshold [(1 : ℚ), 2] 50 = threshold [(1 : ℚ), 2] 50 :=
  ⟨⟨rfl, rfl⟩, segment_foreground_deterministic arrMax [(1 : ℚ), 2] [(1 : ℚ), 2] 50 50 rfl rfl⟩

/-- Claim C9.  The widget mask is antitone in the percentile: for
0 ≤ p1 ≤ p2 ≤ 100 every pixel marked at p2 is marked at p1; at percentile
100 the mask is empty; at percentile 0 it marks exactly the pixels strictly
greater than the image minimum. -/
theorem threshold_antitone_bounds (data : List ℚ) (p1 p2 : ℚ)
    (h0 : 0 ≤ p1) (h12 : p1 ≤ p2) (h100 : p2 ≤ 100) :
    (∀ i : ℕ, (threshold data p2).getD i false = true →
      (threshold data p1).getD i false = true) ∧
    threshold data 100 = data.map (fun _ => false) ∧
    threshold data 0 = data.map (fun x => decide (arrMin data < x)) := by
  have hd : 0 ≤ arrMax data - arrMin data := by
    have := arrMin_le_arrMax data; linarith
  have hvv : thresholdVal data p1 ≤ thresholdVal data p2 := by
    unfold thresholdVal
    have : p1 / 100 * (arrMax data - arrMin data) ≤
        p2 / 100 * (arrMax data - arrMin data) := by
      apply mul_le_mul_of_nonneg_right _ hd
      linarith
    linarith
  refine ⟨?_, ?_, ?_⟩
  · intro i hi
    unfold threshold at hi ⊢
    rw [List.getD_eq_getElem?_getD, List.getElem?_map] at hi ⊢
    cases hx : data[i]? with
    | none => rw [hx] at hi; simp at hi
    | some x =>
      rw [hx] at hi
      simp at hi ⊢
      linarith
  · have hval : thresholdVal data 100 = arrMax data := by
      rw [thresholdVal]
      have h : (100 : ℚ) / 100 = 1 := by norm_num
      rw [h]; ring
    unfold threshold
    refine List.map_congr_left (fun x hx => ?_)
    rw [hval]
    simp [not_lt.mpr (mem_le_arrMax data x hx)]
  · have hval : thresholdVal data 0 = arrMin data := by
      rw [thresholdVal]
      have h : (0 : ℚ) / 100 = 0 := by norm_num
      rw [h]; ring
    unfold threshold
    simp only [hval]

/-- Claim C9, witness at a concrete image and percentile pair. -/
theorem threshold_antitone_bounds_witness :
    ((0 : ℚ) ≤ 20 ∧ (20 : ℚ) ≤ 60 ∧ (60 : ℚ) ≤ 100) ∧
    ((∀ i : ℕ, (threshold [(0 : ℚ), 5, 10] 60).getD i false = true →
      (threshold [(0 : ℚ), 5, 10] 20).getD i false = true) ∧
    threshold [(0 : ℚ), 5, 10] 100 = ([(0 : ℚ), 5, 10]).map (fun _ => false) ∧
    threshold [(0 : ℚ), 5, 10] 0 =
      ([(0 : ℚ), 5, 10]).map (fun x => decide (arrMin [(0 : ℚ), 5, 10] < x))) :=
  ⟨⟨by norm_num, by norm_num, by norm_num⟩,
    threshold_antitone_bounds [(0 : ℚ), 5, 10] 20 60 (by norm_num) (by norm_num) (by norm_num)⟩

/-- Claim C10.  The signal-per-unit-area loop of
lessons/01_manual_annotation.py iterates label_id over range(n_labels) with
n_labels the maximum label value: it emits exactly n_labels ratios, one for
each label id 0 .. n_labels - 1, so the background label 0 is included and
the highest label id n_labels is excluded. -/
theorem ratios_per_label_indexing (labels : List ℕ) (img : List ℚ) :
    ratiosLoop labels img =
      (List.range (maxLabel labels)).map (ratioFor labels img) ∧
    (ratiosLoop labels img).length = maxLabel labels := by
  have h := foldl_append_eq_map (ratioFor labels img)
    (List.range (maxLabel labels)) []
  constructor
  · simpa [ratiosLoop] using h
  · rw [ratiosLoop, h]
    simp

/-! ## The viewer layer list

Modelled from the spec: the napari viewer implementation is external to this
repository; the lessons only call add_image / add_points, index
viewer.layers by name, mutate a points layer by adding coordinates, and
remove layers.  A session is a list of named, typed layers; lookup by name
returns the first layer with that name. -/

/-- Modelled from the spec: the data payload of a layer, one of the typed
containers of section 3 of the spec (image array, label array, point
coordinate list). -/
inductive LayerData where
  | image (shape : List ℕ) (values : List ℚ)
  | labels (shape : List ℕ) (values : List ℕ)
  | points (coords : List (List ℚ))
deriving DecidableEq

/-- Modelled from the spec: a named, typed layer of the session. -/
structure Layer where
  name : String
  data : LayerData
deriving DecidableEq

/-- Modelled from the spec: viewer.add_image appends a new image layer. -/
def add_image (v : List Layer) (nm : String) (shape : List ℕ)
    (values : List ℚ) : List Layer :=
  v ++ [⟨nm, LayerData.image shape values⟩]

/-- Modelled from the spec: viewer.add_points appends a new, empty points
layer, as in lessons/01_manual_annotation.py lines 77-81. -/
def add_points (v : List Layer) (nm : String) : List Layer :=
  v ++ [⟨nm, LayerData.points []⟩]

/-- Modelled from the spec: name-keyed lookup in viewer.layers. -/
def getLayer (v : List Layer) (nm : String) : Option Layer :=
  v.find? (fun l => l.name == nm)

/-- Modelled from the spec: load_image(path) reads an array (shape and
values) from a file system, failing on a missing path. -/
def load_image (fs : String → Option (List ℕ × List ℚ)) (path : String) :
    Option (List ℕ × List ℚ) :=
  fs path

/-- Modelled from the spec: clicking in add mode appends one coordinate to
the named points layer and touches nothing else. -/
def addPointLayer (nm : String) (pt : List ℚ) (l : Layer) : Layer :=
  if l.name == nm then
    match l.data with
    | LayerData.points cs => ⟨l.name, LayerData.points (cs ++ [pt])⟩
    | _ => l
  else l

/-- Modelled from the spec: add one point to the layer named nm. -/
def addPoint (v : List Layer) (nm : String) (pt : List ℚ) : List Layer :=
  v.map (addPointLayer nm pt)

/-- Modelled from the spec: delete every layer with the given name. -/
def removeLayer (v : List Layer) (nm : String) : List Layer :=
  v.filter (fun l => !(l.name == nm))

/-- The point count of a named points layer, as read by
len(viewer.layers[name].data) in lessons/01_manual_annotation.py
lines 131-132 (none when the layer is missing or not a points layer). -/
def pointCount (v : List Layer) (nm : String) : Option ℕ :=
  (getLayer v nm).bind (fun l =>
    match l.data with
    | LayerData.points cs => some cs.length
    | _ => none)

lemma addPointLayer_name (nm : String) (pt : List ℚ) (l : Layer) :
    (addPointLayer nm pt l).name = l.name := by
  unfold addPointLayer
  by_cases h : l.name == nm
  · rw [if_pos h]
    cases l.data <;> rfl
  · rw [if_neg h]

lemma addPointLayer_other (nm : String) (pt : List ℚ) (l : Layer)
    (h : l.name ≠ nm) : addPointLayer nm pt l = l := by
  unfold addPointLayer
  rw [if_neg (by simpa using h)]

lemma getLayer_addPoint_ne (v : List Layer) (nmA nmB : String)
    (pt : List ℚ) (hne : nmA ≠ nmB) :
    getLayer (addPoint v nmA pt) nmB = getLayer v nmB := by
  induction v with
  | nil => rfl
  | cons l ls ih =>
    unfold addPoint getLayer at ih ⊢
    rw [List.map_cons, List.find?_cons, List.find?_cons, addPointLayer_name]
    by_cases hB : l.name = nmB
    · have hb : (l.name == nmB) = true := by simpa using hB
      rw [hb]
      simp only [cond_true]
      rw [addPointLayer_other nmA pt l (by rw [hB]; exact fun h => hne h.symm)]
    · have hb : (l.name == nmB) = false := by simpa using hB
      rw [hb]
      simp only [cond_false]
      exact ih

lemma getLayer_removeLayer_ne (v : List Layer) (nmA nmB : String)
    (hne : nmA ≠ nmB) :
    getLayer (removeLayer v nmA) nmB = getLayer v nmB := by
  induction v with
  | nil => rfl
  | cons l ls ih =>
    unfold removeLayer getLayer at ih ⊢
    rw [List.filter_cons]
    by_cases hA : l.name = nmA
    · have ha : (!(l.name == nmA)) = false := by simp [hA]
      rw [ha]
      have hb : (l.name == nmB) = false := by
        simp only [beq_eq_false_iff_ne, ne_eq, hA]
        exact hne
      rw [if_neg (by simp), List.find?_cons, hb]
      simp only [cond_false]
      exact ih
    · have ha : (!(l.name == nmA)) = true := by simp [hA]
      rw [ha, if_pos rfl, List.find?_cons, List.find?_cons]
      cases l.name == nmB with
      | true => rfl
      | false => exact ih

/-! ## Claims C5 and C8 -/

/-- Claim C5.  Loading an array from a file and displaying it as a fresh
image layer preserves the exact shape and values: the layer registered
under the fresh name carries precisely the loaded array. -/
theorem load_display_roundtrip (fs : String → Option (List ℕ × List ℚ))
    (path nm : String) (v : List Layer) (shape : List ℕ) (values : List ℚ)
    (hload : load_image fs path = some (shape, values))
    (hfresh : getLayer v nm = none) :
    getLayer (add_image v nm shape values) nm =
      some ⟨nm, LayerData.image shape values⟩ := by
  unfold getLayer at hfresh ⊢
  unfold add_image
  rw [List.find?_append, hfresh]
  simp [List.find?_cons]

/-- Claim C5, witness: a singleton file system and an empty viewer. -/
theorem load_display_roundtrip_witness :
    (load_image (fun _ => some ([2, 2], [(1 : ℚ), 2, 3, 4])) ("data") =
        some ([2, 2], [(1 : ℚ), 2, 3, 4]) ∧
      getLayer [] ("nuclei") = none) ∧
    getLayer (add_image [] ("nuclei") [2, 2] [(1 : ℚ), 2, 3, 4]) ("nuclei") =
      some ⟨("nuclei"), LayerData.image [2, 2] [(1 : ℚ), 2, 3, 4]⟩ :=
  ⟨⟨rfl, rfl⟩,
    load_display_roundtrip (fun _ => some ([2, 2], [(1 : ℚ), 2, 3, 4]))
      ("data") ("nuclei") [] [2, 2] [(1 : ℚ), 2, 3, 4] rfl rfl⟩

/-- Claim C8.  The two points layers accumulate independently: adding a
point to one layer leaves the other layer's point count unchanged, and
deleting one layer leaves the other layer's point count unchanged. -/
theorem points_layers_independent (v : List Layer) (nmA nmB : String)
    (hne : nmA ≠ nmB) (pt : List ℚ) :
    pointCount (addPoint v nmA pt) nmB = pointCount v nmB ∧
    pointCount (removeLayer v nmA) nmB = pointCount v nmB := by
  constructor
  · unfold pointCount
    rw [getLayer_addPoint_ne v nmA nmB pt hne]
  · unfold pointCount
    rw [getLayer_removeLayer_ne v nmA nmB hne]

/-- Claim C8, witness: the dividing and non-dividing layers of
lessons/01_manual_annotation.py. -/
theorem points_layers_independent_witness :
    ("dividing" : String) ≠ ("non-dividing") ∧
    (pointCount (addPoint (add_points (add_points [] ("dividing"))
        ("non-dividing")) ("dividing") [3, 4]) ("non-dividing") =
      pointCount (add_points (add_points [] ("dividing"))
        ("non-dividing")) ("non-dividing") ∧
    pointCount (removeLayer (add_points (add_points [] ("dividing"))
        ("non-dividing")) ("dividing")) ("non-dividing") =
      pointCount (add_points (add_points [] ("dividing"))
        ("non-dividing")) ("non-dividing")) :=
  ⟨by decide,
    points_layers_independent
      (add_points (add_points [] ("dividing")) ("non-dividing"))
      ("dividing") ("non-dividing") (by decide) [3, 4]⟩

/-! ## Saving and reloading a label image

Modelled from the spec: the builtin tif writer and reader used by
lessons/01_manual_annotation.py lines 274-282 are external to this
repository.  The spec calls the format a lossless integer raster codec, so
the model serialises the dimension count, the shape and the flattened
integer data as 4-byte little-endian words. -/

/-- Modelled from the spec: one unsigned 32-bit value as 4 little-endian
bytes. -/
def encNat (x : ℕ) : List ℕ :=
  [x % 256, x / 256 % 256, x / 256 ^ 2 % 256, x / 256 ^ 3 % 256]

/-- Modelled from the spec: read one 4-byte word, returning it and the rest
of the stream. -/
def decNat4 : List ℕ → Option (ℕ × List ℕ)
  | b0 :: b1 :: b2 :: b3 :: rest =>
    some (b0 + 256 * b1 + 256 ^ 2 * b2 + 256 ^ 3 * b3, rest)
  | _ => none

/-- Modelled from the spec: read k consecutive 4-byte words. -/
def decNats : ℕ → List ℕ → Option (List ℕ × List ℕ)
  | 0, rest => some ([], rest)
  | k + 1, rest =>
    (decNat4 rest).bind (fun p =>
      (decNats k p.2).bind (fun q => some (p.1 :: q.1, q.2)))

/-- Modelled from the spec: viewer.layers[..].save for a label layer writes
the dimension count, the shape and the flattened integer data. -/
def save_labels (shape : List ℕ) (data : List ℕ) : List ℕ :=
  encNat shape.length ++ shape.flatMap encNat ++ data.flatMap encNat

/-- Modelled from the spec: viewer.open for a saved label image parses the
dimension count, the shape and exactly shape.prod data values, rejecting a
malformed file. -/
def load_labels (file : List ℕ) : Option (List ℕ × List ℕ) :=
  (decNat4 file).bind (fun p =>
    (decNats p.1 p.2).bind (fun q =>
      (decNats q.1.prod q.2).bind (fun r =>
        if r.2 = [] then some (q.1, r.1) else none)))

lemma decNat4_encNat (x : ℕ) (hx : x < 2 ^ 32) (rest : List ℕ) :
    decNat4 (encNat x ++ rest) = some (x, rest) := by
  simp only [encNat, List.cons_append, List.nil_append, decNat4,
    Option.some.injEq, Prod.mk.injEq]
  constructor
  · omega
  · trivial

lemma decNats_encode (l : List ℕ) (hl : ∀ x ∈ l, x < 2 ^ 32) (rest : List ℕ) :
    decNats l.length (l.flatMap encNat ++ rest) = some (l, rest) := by
  induction l with
  | nil => simp [decNats]
  | cons x xs ih =>
    rw [List.flatMap_cons, List.append_assoc, List.length_cons]
    unfold decNats
    rw [decNat4_encNat x (hl x (List.mem_cons_self x xs)) _]
    rw [Option.some_bind]
    rw [ih (fun y hy => hl y (List.mem_cons_of_mem x hy))]
    rw [Option.some_bind]

/-- Claim C4.  Saving an integer label array and reloading the file yields
a bit-exact copy: shape and every value round-trip losslessly through the
modelled raster codec, provided each stored word fits in 32 bits and the
data is shape-consistent. -/
theorem save_load_roundtrip (shape data : List ℕ)
    (hs : ∀ x ∈ shape, x < 2 ^ 32) (hd : ∀ x ∈ data, x < 2 ^ 32)
    (hlen : shape.length < 2 ^ 32) (hprod : data.length = shape.prod) :
    load_labels (save_labels shape data) = some (shape, data) := by
  unfold save_labels load_labels
  rw [List.append_assoc, decNat4_encNat shape.length hlen, Option.some_bind]
  rw [decNats_encode shape hs, Option.some_bind]
  have h3 : decNats shape.prod (data.flatMap encNat) = some (data, []) := by
    rw [← hprod]
    have h2 := decNats_encode data hd []
    rwa [List.append_nil] at h2
  rw [h3, Option.some_bind]
  simp

/-- Claim C4, witness: a concrete 2 by 2 label array. -/
theorem save_load_roundtrip_witness :
    ((∀ x ∈ [2, 2], x < 2 ^ 32) ∧ (∀ x ∈ [0, 1, 1, 2], x < 2 ^ 32) ∧
      ([2, 2] : List ℕ).length < 2 ^ 32 ∧
      ([0, 1, 1, 2] : List ℕ).length = ([2, 2] : List ℕ).prod) ∧
    load_labels (save_labels [2, 2] [0, 1, 1, 2]) = some ([2, 2], [0, 1, 1, 2]) :=
  ⟨⟨by decide, by decide, by decide, by decide⟩,
    save_load_roundtrip [2, 2] [0, 1, 1, 2] (by decide) (by decide) (by decide) (by decide)⟩

/-! ## Connected components on the pixel grid

Modelled from the spec: remove_small_holes / remove_small_objects,
measure.label and segmentation.watershed are scikit-image internals outside
this repository.  The spec describes them through connected components of
the pixel grid ("removes connected components below size thresholds", "0
denotes background and each positive integer denotes one connected region
instance", "floods from seed points ... to partition connected foreground").
Pixels are an abstract finite index set Fin n with a boolean adjacency
relation (the 2D 4-neighbour grid of the lessons is one instance); a mask
is a boolean pixel predicate.  compF computes the connected component of a
pixel inside a mask by saturating neighbour expansion. -/

section PixelGraph

variable {n : ℕ}

/-- One saturation step: add every mask pixel adjacent to the current set. -/
def grow (adj : Fin n → Fin n → Bool) (m : Fin n → Bool)
    (s : Finset (Fin n)) : Finset (Fin n) :=
  s ∪ Finset.univ.filter (fun w => m w = true ∧ ∃ u ∈ s, adj u w = true)

/-- The connected component of v inside mask m: neighbour expansion
saturated after n steps (empty when v is not in the mask). -/
def compF (adj : Fin n → Fin n → Bool) (m : Fin n → Bool) (v : Fin n) :
    Finset (Fin n) :=
  if m v = true then (grow adj m)^[n] ({v} : Finset (Fin n)) else ∅

lemma mem_grow {adj : Fin n → Fin n → Bool} {m : Fin n → Bool}
    {s : Finset (Fin n)} {w : Fin n} :
    w ∈ grow adj m s ↔ w ∈ s ∨ (m w = true ∧ ∃ u ∈ s, adj u w = true) := by
  simp [grow]

lemma subset_grow (adj : Fin n → Fin n → Bool) (m : Fin n → Bool)
    (s : Finset (Fin n)) : s ⊆ grow adj m s :=
  Finset.subset_union_left

lemma subset_iterate (f : Finset (Fin n) → Finset (Fin n))
    (hf : ∀ t, t ⊆ f t) (s : Finset (Fin n)) (k : ℕ) : s ⊆ f^[k] s := by
  induction k with
  | zero => exact subset_refl s
  | succ k ih =>
    rw [Function.iterate_succ_apply']
    exact subset_trans ih (hf _)

lemma iterate_fixed_later (f : Finset (Fin n) → Finset (Fin n))
    (s : Finset (Fin n)) (k j : ℕ) (h : f (f^[k] s) = f^[k] s) (hkj : k ≤ j) :
    f^[j] s = f^[k] s := by
  induction j with
  | zero =>
    have : k = 0 := Nat.le_zero.mp hkj
    rw [this]
  | succ j ih =>
    rcases Nat.lt_or_ge k (j + 1) with hlt | hge
    · have hj : f^[j] s = f^[k] s := ih (Nat.lt_succ_iff.mp hlt)
      rw [Function.iterate_succ_apply', hj, h]
    · have : k = j + 1 := le_antisymm hkj hge
      rw [this]

lemma iterate_n_fixed (f : Finset (Fin n) → Finset (Fin n))
    (hf : ∀ t, t ⊆ f t) (s : Finset (Fin n)) : f (f^[n] s) = f^[n] s := by
  by_contra hne
  have hne_k : ∀ k, k ≤ n → f (f^[k] s) ≠ f^[k] s := by
    intro k hk heq
    exact hne (by rw [iterate_fixed_later f s k n heq hk, heq])
  have hcard : ∀ k, k ≤ n + 1 → k ≤ (f^[k] s).card := by
    intro k
    induction k with
    | zero => intro _; exact Nat.zero_le _
    | succ k ih =>
      intro hk
      have h1 : k ≤ (f^[k] s).card := ih (by omega)
      have hsucc : f^[k + 1] s = f (f^[k] s) := Function.iterate_succ_apply' f k s
      have hss : f^[k] s ⊂ f^[k + 1] s := by
        refine ⟨by rw [hsucc]; exact hf _, ?_⟩
        intro hsub
        have heq : f (f^[k] s) = f^[k] s := by
          apply Finset.Subset.antisymm
          · rw [← hsucc]; exact hsub
          · exact hf _
        exact hne_k k (by omega) heq
      have h2 := Finset.card_lt_card hss
      omega
  have hbig := hcard (n + 1) (le_refl _)
  have hsmall : (f^[n + 1] s).card ≤ n := by
    have := Finset.card_le_univ (f^[n + 1] s)
    simpa using this
  omega

lemma grow_compF_eq (adj : Fin n → Fin n → Bool) (m : Fin n → Bool)
    (v : Fin n) : grow adj m (compF adj m v) = compF adj m v := by
  unfold compF
  by_cases h : m v = true
  · rw [if_pos h]
    exact iterate_n_fixed _ (subset_grow adj m) _
  · rw [if_neg h]
    simp [grow]

lemma self_mem_compF (adj : Fin n → Fin n → Bool) (m : Fin n → Bool)
    (v : Fin n) (h : m v = true) : v ∈ compF adj m v := by
  unfold compF
  rw [if_pos h]
  exact subset_iterate _ (subset_grow adj m) _ n (Finset.mem_singleton_self v)

lemma compF_closed (adj : Fin n → Fin n → Bool) (m : Fin n → Bool)
    {v u w : Fin n} (hu : u ∈ compF adj m v) (ha : adj u w = true)
    (hm : m w = true) : w ∈ compF adj m v := by
  rw [← grow_compF_eq adj m v]
  exact mem_grow.mpr (Or.inr ⟨hm, u, hu, ha⟩)

/-- One step of in-mask adjacency: b is a mask pixel adjacent to a. -/
def stepRel (adj : Fin n → Fin n → Bool) (m : Fin n → Bool)
    (a b : Fin n) : Prop :=
  adj a b = true ∧ m b = true

lemma mem_compF_iff (adj : Fin n → Fin n → Bool) (m : Fin n → Bool)
    (v w : Fin n) :
    w ∈ compF adj m v ↔
      m v = true ∧ Relation.ReflTransGen (stepRel adj m) v w := by
  constructor
  · intro hw
    unfold compF at hw
    by_cases h : m v = true
    · rw [if_pos h] at hw
      refine ⟨h, ?_⟩
      have hgen : ∀ k (x : Fin n), x ∈ (grow adj m)^[k] ({v} : Finset (Fin n)) →
          Relation.ReflTransGen (stepRel adj m) v x := by
        intro k
        induction k with
        | zero =>
          intro x hx
          rw [Function.iterate_zero_apply, Finset.mem_singleton] at hx
          rw [hx]
        | succ k ih =>
          intro x hx
          rw [Function.iterate_succ_apply'] at hx
          rcases mem_grow.mp hx with hx | ⟨hmx, u, hu, hadj⟩
          · exact ih x hx
          · exact Relation.ReflTransGen.tail (ih u hu) ⟨hadj, hmx⟩
      exact hgen n w hw
    · rw [if_neg h] at hw
      cases hw
  · rintro ⟨hmv, hrtg⟩
    induction hrtg with
    | refl => exact self_mem_compF adj m v hmv
    | tail hab hbc ih => exact compF_closed adj m ih hbc.1 hbc.2

lemma mask_of_mem_compF (adj : Fin n → Fin n → Bool) (m : Fin n → Bool)
    {v w : Fin n} (hw : w ∈ compF adj m v) : m w = true := by
  obtain ⟨hmv, hrtg⟩ := (mem_compF_iff adj m v w).mp hw
  rcases Relation.ReflTransGen.cases_tail hrtg with h | ⟨c, _, hc⟩
  · rw [h]; exact hmv
  · exact hc.2

lemma rtg_symm (adj : Fin n → Fin n → Bool) (m : Fin n → Bool)
    (hsymm : ∀ a b, adj a b = adj b a) {v w : Fin n} (hmv : m v = true)
    (h : Relation.ReflTransGen (stepRel adj m) v w) :
    Relation.ReflTransGen (stepRel adj m) w v := by
  induction h with
  | refl => exact Relation.ReflTransGen.refl
  | @tail b c hab hbc ih =>
    have hmb : m b = true := by
      rcases Relation.ReflTransGen.cases_tail hab with h | ⟨d, _, hd⟩
      · rw [h]; exact hmv
      · exact hd.2
    exact Relation.ReflTransGen.head ⟨(hsymm b c) ▸ hbc.1, hmb⟩ ih

lemma compF_symm_mem (adj : Fin n → Fin n → Bool) (m : Fin n → Bool)
    (hsymm : ∀ a b, adj a b = adj b a) {v w : Fin n}
    (hw : w ∈ compF adj m v) : v ∈ compF adj m w := by
  obtain ⟨hmv, hrtg⟩ := (mem_compF_iff adj m v w).mp hw
  exact (mem_compF_iff adj m w v).mpr
    ⟨mask_of_mem_compF adj m hw, rtg_symm adj m hsymm hmv hrtg⟩

lemma compF_trans_mem (adj : Fin n → Fin n → Bool) (m : Fin n → Bool)
    {v u w : Fin n} (hu : u ∈ compF adj m v) (hw : w ∈ compF adj m u) :
    w ∈ compF adj m v := by
  obtain ⟨hmv, h1⟩ := (mem_compF_iff adj m v u).mp hu
  obtain ⟨hmu, h2⟩ := (mem_compF_iff adj m u w).mp hw
  exact (mem_compF_iff adj m v w).mpr ⟨hmv, Relation.ReflTransGen.trans h1 h2⟩

lemma compF_eq_of_mem (adj : Fin n → Fin n → Bool) (m : Fin n → Bool)
    (hsymm : ∀ a b, adj a b = adj b a) {v w : Fin n}
    (hw : w ∈ compF adj m v) : compF adj m w = compF adj m v := by
  ext x
  constructor
  · intro hx
    exact compF_trans_mem adj m hw hx
  · intro hx
    exact compF_trans_mem adj m (compF_symm_mem adj m hsymm hw) hx

lemma compF_mono (adj : Fin n → Fin n → Bool) {ma mb : Fin n → Bool}
    (hle : ∀ x, ma x = true → mb x = true) (v : Fin n) :
    compF adj ma v ⊆ compF adj mb v := by
  intro w hw
  obtain ⟨hmv, hrtg⟩ := (mem_compF_iff adj ma v w).mp hw
  refine (mem_compF_iff adj mb v w).mpr ⟨hle v hmv, ?_⟩
  exact Relation.ReflTransGen.mono (fun a b hab => ⟨hab.1, hle b hab.2⟩) hrtg

lemma compF_preserved (adj : Fin n → Fin n → Bool) {mb ms : Fin n → Bool}
    (hle : ∀ x, ms x = true → mb x = true) (v : Fin n)
    (hall : ∀ w ∈ compF adj mb v, ms w = true) :
    compF adj ms v = compF adj mb v := by
  apply Finset.Subset.antisymm (compF_mono adj hle v)
  intro w hw
  obtain ⟨hmv, hrtg⟩ := (mem_compF_iff adj mb v w).mp hw
  clear hw
  induction hrtg with
  | refl =>
    exact self_mem_compF adj ms v (hall v (self_mem_compF adj mb v hmv))
  | @tail b c hab hbc ih =>
    have hcmem : c ∈ compF adj mb v :=
      (mem_compF_iff adj mb v c).mpr ⟨hmv, Relation.ReflTransGen.tail hab hbc⟩
    exact compF_closed adj ms ih hbc.1 (hall c hcmem)

/-! ## Mask cleaning: remove_small_holes then remove_small_objects

Modelled from the spec: clean_mask(mask, min_hole_size, min_object_size)
removes connected components below size thresholds.  As in scikit-image,
remove_small_objects drops foreground components with fewer than minSize
pixels, and remove_small_holes fills background components with fewer than
holeSize pixels (both strict, both using the same pixel connectivity). -/

/-- Modelled from the spec: morphology.remove_small_objects. -/
def rso (adj : Fin n → Fin n → Bool) (m : Fin n → Bool) (minSize : ℕ) :
    Fin n → Bool :=
  fun v => m v && decide (minSize ≤ (compF adj m v).card)

/-- Modelled from the spec: morphology.remove_small_holes. -/
def rsh (adj : Fin n → Fin n → Bool) (m : Fin n → Bool) (holeSize : ℕ) :
    Fin n → Bool :=
  fun v => m v || decide ((compF adj (fun w => !(m w)) v).card < holeSize)

/-- The composite mask-cleaning step of the lessons (02_interactive_analysis
lines 140-141 and 303-305): remove_small_holes then remove_small_objects. -/
def clean_mask (adj : Fin n → Fin n → Bool) (m : Fin n → Bool)
    (holeSize objSize : ℕ) : Fin n → Bool :=
  rso adj (rsh adj m holeSize) objSize

lemma rso_true_iff (adj : Fin n → Fin n → Bool) (m : Fin n → Bool)
    (s : ℕ) (v : Fin n) :
    rso adj m s v = true ↔ m v = true ∧ s ≤ (compF adj m v).card := by
  simp [rso]

lemma rsh_true_iff (adj : Fin n → Fin n → Bool) (m : Fin n → Bool)
    (s : ℕ) (v : Fin n) :
    rsh adj m s v = true ↔
      m v = true ∨ (compF adj (fun w => !(m w)) v).card < s := by
  simp [rsh]

lemma rsh_false_iff (adj : Fin n → Fin n → Bool) (m : Fin n → Bool)
    (s : ℕ) (v : Fin n) :
    rsh adj m s v = false ↔
      m v = false ∧ s ≤ (compF adj (fun w => !(m w)) v).card := by
  simp [rsh, not_lt]

lemma rso_le_mask (adj : Fin n → Fin n → Bool) (m : Fin n → Bool)
    (s : ℕ) (v : Fin n) (h : rso adj m s v = true) : m v = true :=
  ((rso_true_iff adj m s v).mp h).1

lemma mask_le_rsh (adj : Fin n → Fin n → Bool) (m : Fin n → Bool)
    (s : ℕ) (v : Fin n) (h : m v = true) : rsh adj m s v = true :=
  (rsh_true_iff adj m s v).mpr (Or.inl h)

/-- Background components that survive hole filling are unchanged: a pixel
still background after remove_small_holes has the same background component
as before, of size at least the hole threshold. -/
lemma rsh_false_comp (adj : Fin n → Fin n → Bool)
    (hsymm : ∀ a b, adj a b = adj b a) (m : Fin n → Bool) (hs : ℕ)
    (v : Fin n) (hv : rsh adj m hs v = false) :
    compF adj (fun w => !(rsh adj m hs w)) v = compF adj (fun w => !(m w)) v := by
  obtain ⟨hmv, hcard⟩ := (rsh_false_iff adj m hs v).mp hv
  apply compF_preserved adj
  · intro x hx
    rw [Bool.not_eq_true'] at hx ⊢
    rcases h : m x with hfalse | htrue
    · rfl
    · exact absurd (mask_le_rsh adj m hs x h)
        (by rw [hx]; exact Bool.false_ne_true)
  · intro w hw
    have hmw : (fun u => !(m u)) w = true := mask_of_mem_compF adj _ hw
    have hco : compF adj (fun u => !(m u)) w = compF adj (fun u => !(m u)) v :=
      compF_eq_of_mem adj _ hsymm hw
    rw [Bool.not_eq_true']
    apply (rsh_false_iff adj m hs w).mpr
    refine ⟨by rwa [Bool.not_eq_true'] at hmw, ?_⟩
    rw [hco]
    exact hcard

/-- Foreground components that survive object removal are unchanged. -/
lemma rso_true_comp (adj : Fin n → Fin n → Bool)
    (hsymm : ∀ a b, adj a b = adj b a) (m : Fin n → Bool) (os : ℕ)
    (v : Fin n) (hv : rso adj m os v = true) :
    compF adj (rso adj m os) v = compF adj m v := by
  obtain ⟨hmv, hcard⟩ := (rso_true_iff adj m os v).mp hv
  apply compF_preserved adj
  · exact rso_le_mask adj m os
  · intro w hw
    apply (rso_true_iff adj m os w).mpr
    refine ⟨mask_of_mem_compF adj m hw, ?_⟩
    rw [compF_eq_of_mem adj m hsymm hw]
    exact hcard

/-- Every pixel set by hole filling on the cleaned mask was already set by
hole filling on the original mask. -/
lemma rsh_clean_le (adj : Fin n → Fin n → Bool)
    (hsymm : ∀ a b, adj a b = adj b a) (m : Fin n → Bool) (hs os : ℕ)
    (u : Fin n) (hu : rsh adj (clean_mask adj m hs os) hs u = true) :
    rsh adj m hs u = true := by
  by_cases hc : clean_mask adj m hs os u = true
  · exact rso_le_mask adj (rsh adj m hs) os u hc
  · have hcf : clean_mask adj m hs os u = false := Bool.eq_false_iff.mpr hc
    rcases (rsh_true_iff adj _ hs u).mp hu with h | hsmall
    · exact absurd h hc
    · by_contra hm1
      have hm1f : rsh adj m hs u = false := Bool.eq_false_iff.mpr hm1
      have hcomp := rsh_false_comp adj hsymm m hs u hm1f
      obtain ⟨_, hbig⟩ := (rsh_false_iff adj m hs u).mp hm1f
      have hmono : compF adj (fun w => !(rsh adj m hs w)) u ⊆
          compF adj (fun w => !(clean_mask adj m hs os w)) u := by
        apply compF_mono adj
        intro x hx
        rw [Bool.not_eq_true'] at hx ⊢
        rcases h : clean_mask adj m hs os x with hfalse | htrue
        · rfl
        · exact absurd (rso_le_mask adj (rsh adj m hs) os x h)
            (by rw [hx]; exact Bool.false_ne_true)
      have : hs ≤ (compF adj (fun w => !(clean_mask adj m hs os w)) u).card := by
        calc hs ≤ (compF adj (fun w => !(m w)) u).card := hbig
        _ = (compF adj (fun w => !(rsh adj m hs w)) u).card := by rw [hcomp]
        _ ≤ _ := Finset.card_le_card hmono
      omega

/-- Claim C3.  The mask-cleaning operation (remove_small_holes followed by
remove_small_objects, same thresholds) is idempotent: cleaning a cleaned
mask changes nothing, for every mask and every pair of size thresholds, on
any symmetric pixel adjacency. -/
theorem clean_mask_idempotent (adj : Fin n → Fin n → Bool)
    (hsymm : ∀ a b, adj a b = adj b a) (m : Fin n → Bool) (hs os : ℕ) :
    clean_mask adj (clean_mask adj m hs os) hs os = clean_mask adj m hs os := by
  funext v
  by_cases hc : clean_mask adj m hs os v = true
  · obtain ⟨hm1, hcard⟩ := (rso_true_iff adj _ os v).mp hc
    have h2 : compF adj (clean_mask adj m hs os) v = compF adj (rsh adj m hs) v :=
      rso_true_comp adj hsymm (rsh adj m hs) os v hc
    have h4 : compF adj (clean_mask adj m hs os) v ⊆
        compF adj (rsh adj (clean_mask adj m hs os) hs) v :=
      compF_mono adj (fun x hx => mask_le_rsh adj _ hs x hx) v
    have h5 : os ≤ (compF adj (rsh adj (clean_mask adj m hs os) hs) v).card := by
      calc os ≤ (compF adj (rsh adj m hs) v).card := hcard
      _ = (compF adj (clean_mask adj m hs os) v).card := by rw [h2]
      _ ≤ _ := Finset.card_le_card h4
    rw [hc]
    exact (rso_true_iff adj _ os v).mpr
      ⟨mask_le_rsh adj _ hs v hc, h5⟩
  · have hcf : clean_mask adj m hs os v = false :=
      Bool.eq_false_iff.mpr hc
    rw [hcf]
    by_cases hr : rsh adj (clean_mask adj m hs os) hs v = true
    · have hm1 : rsh adj m hs v = true := rsh_clean_le adj hsymm m hs os v hr
      have hlt : (compF adj (rsh adj m hs) v).card < os := by
        rcases Nat.lt_or_ge (compF adj (rsh adj m hs) v).card os with h | h
        · exact h
        · exact absurd ((rso_true_iff adj _ os v).mpr ⟨hm1, h⟩) hc
      have hsub : compF adj (rsh adj (clean_mask adj m hs os) hs) v ⊆
          compF adj (rsh adj m hs) v :=
        compF_mono adj (rsh_clean_le adj hsymm m hs os) v
      have hlt2 : (compF adj (rsh adj (clean_mask adj m hs os) hs) v).card < os :=
        lt_of_le_of_lt (Finset.card_le_card hsub) hlt
      rw [← Bool.not_eq_true]
      intro habs
      obtain ⟨_, hge⟩ := (rso_true_iff adj _ os v).mp habs
      omega
    · have hrf : rsh adj (clean_mask adj m hs os) hs v = false :=
        Bool.eq_false_iff.mpr hr
      have hshow : clean_mask adj (clean_mask adj m hs os) hs os v =
          (rsh adj (clean_mask adj m hs os) hs v &&
            decide (os ≤ (compF adj (rsh adj (clean_mask adj m hs os) hs) v).card)) := rfl
      rw [hshow, hrf, Bool.false_and]

/-- Claim C3, witness on the 4-pixel path graph with a one-pixel hole and a
one-pixel object. -/
theorem clean_mask_idempotent_witness :
    (∀ a b : Fin 4, (fun x y : Fin 4 => decide (x.val + 1 = y.val) ||
        decide (y.val + 1 = x.val)) a b =
      (fun x y : Fin 4 => decide (x.val + 1 = y.val) ||
        decide (y.val + 1 = x.val)) b a) ∧
    clean_mask (fun x y : Fin 4 => decide (x.val + 1 = y.val) ||
        decide (y.val + 1 = x.val))
      (clean_mask (fun x y : Fin 4 => decide (x.val + 1 = y.val) ||
          decide (y.val + 1 = x.val))
        (fun v : Fin 4 => decide (v.val = 0) || decide (v.val = 2)) 2 2) 2 2 =
    clean_mask (fun x y : Fin 4 => decide (x.val + 1 = y.val) ||
        decide (y.val + 1 = x.val))
      (fun v : Fin 4 => decide (v.val = 0) || decide (v.val = 2)) 2 2 :=
  ⟨by decide,
    clean_mask_idempotent
      (fun x y : Fin 4 => decide (x.val + 1 = y.val) || decide (y.val + 1 = x.val))
      (by decide)
      (fun v : Fin 4 => decide (v.val = 0) || decide (v.val = 2)) 2 2⟩

/-! ## Seed labelling and marker-controlled watershed

Modelled from the spec: measure.label assigns each connected foreground
component one positive id; segmentation.watershed floods from the labelled
seed points through the foreground mask, leaving everything outside the
mask at 0 and never relabelling a seed.  The flood-order/tie-break policy
is delegated to the external algorithm by the spec, so the model propagates
labels by repeated neighbour steps with an arbitrary concrete tie-break
(least neighbouring label). -/

/-- Modelled from the spec: measure.label — a foreground pixel's id is
determined by its connected component (least pixel index in the component,
plus one); background pixels get 0. -/
def labelRaw (adj : Fin n → Fin n → Bool) (m : Fin n → Bool) (v : Fin n) : ℕ :=
  if h : (compF adj m v).Nonempty then ((compF adj m v).min' h).val + 1 else 0

/-- The initial watershed labelling: marker labels inside the mask, 0
elsewhere. -/
def initLab (mask : Fin n → Bool) (markers : Fin n → ℕ) (v : Fin n) : ℕ :=
  if mask v = true then markers v else 0

/-- The labels present on pixels adjacent to v. -/
def nbrLabels (adj : Fin n → Fin n → Bool) (lab : Fin n → ℕ) (v : Fin n) :
    Finset ℕ :=
  (Finset.univ.filter (fun w => adj w v = true ∧ lab w ≠ 0)).image lab

/-- One flooding step: an unlabelled mask pixel takes the least label among
its labelled neighbours; labelled pixels and out-of-mask pixels are
untouched. -/
def wsStep (adj : Fin n → Fin n → Bool) (mask : Fin n → Bool)
    (lab : Fin n → ℕ) : Fin n → ℕ :=
  fun v =>
    if lab v = 0 ∧ mask v = true then
      if h : (nbrLabels adj lab v).Nonempty then (nbrLabels adj lab v).min' h
      else 0
    else lab v

/-- Modelled from the spec: segmentation.watershed with markers and mask —
flooding saturated after n steps. -/
def watershed (adj : Fin n → Fin n → Bool) (mask : Fin n → Bool)
    (markers : Fin n → ℕ) : Fin n → ℕ :=
  (wsStep adj mask)^[n] (initLab mask markers)

/-- The set of positive labels present in a label array. -/
def posLabels (lab : Fin n → ℕ) : Finset ℕ :=
  (Finset.univ.filter (fun v => lab v ≠ 0)).image lab

lemma wsStep_stable (adj : Fin n → Fin n → Bool) (mask : Fin n → Bool)
    (lab : Fin n → ℕ) (v : Fin n) (h : lab v ≠ 0) :
    wsStep adj mask lab v = lab v := by
  unfold wsStep
  rw [if_neg (fun hc => h hc.1)]

lemma wsStep_outside (adj : Fin n → Fin n → Bool) (mask : Fin n → Bool)
    (lab : Fin n → ℕ) (v : Fin n) (h : mask v = false) :
    wsStep adj mask lab v = lab v := by
  unfold wsStep
  rw [if_neg (fun hc => by rw [h] at hc; exact Bool.false_ne_true hc.2)]

lemma iterate_wsStep_stable (adj : Fin n → Fin n → Bool) (mask : Fin n → Bool)
    (k : ℕ) (lab : Fin n → ℕ) (v : Fin n) (h : lab v ≠ 0) :
    (wsStep adj mask)^[k] lab v = lab v := by
  induction k generalizing lab with
  | zero => rfl
  | succ k ih =>
    rw [Function.iterate_succ_apply]
    have hstep := wsStep_stable adj mask lab v h
    rw [ih (wsStep adj mask lab) (by rw [hstep]; exact h), hstep]

lemma iterate_wsStep_outside (adj : Fin n → Fin n → Bool) (mask : Fin n → Bool)
    (k : ℕ) (lab : Fin n → ℕ) (v : Fin n) (h : mask v = false) :
    (wsStep adj mask)^[k] lab v = lab v := by
  induction k generalizing lab with
  | zero => rfl
  | succ k ih =>
    rw [Function.iterate_succ_apply]
    have hstep := wsStep_outside adj mask lab v h
    rw [ih (wsStep adj mask lab), hstep]

lemma wsStep_provenance (adj : Fin n → Fin n → Bool) (mask : Fin n → Bool)
    (lab : Fin n → ℕ) (v : Fin n) (h : wsStep adj mask lab v ≠ 0) :
    ∃ w, lab w = wsStep adj mask lab v ∧ lab w ≠ 0 := by
  unfold wsStep at h ⊢
  by_cases hc : lab v = 0 ∧ mask v = true
  · rw [if_pos hc] at h ⊢
    by_cases hne : (nbrLabels adj lab v).Nonempty
    · rw [dif_pos hne] at h ⊢
      have hmem := Finset.min'_mem (nbrLabels adj lab v) hne
      unfold nbrLabels at hmem
      rw [Finset.mem_image] at hmem
      obtain ⟨w, hw, hwl⟩ := hmem
      rw [Finset.mem_filter] at hw
      exact ⟨w, hwl, hw.2.2⟩
    · rw [dif_neg hne] at h
      exact absurd rfl h
  · rw [if_neg hc] at h ⊢
    exact ⟨v, rfl, h⟩

lemma iterate_wsStep_provenance (adj : Fin n → Fin n → Bool)
    (mask : Fin n → Bool) (k : ℕ) (lab : Fin n → ℕ) (v : Fin n)
    (h : (wsStep adj mask)^[k] lab v ≠ 0) :
    ∃ w, lab w = (wsStep adj mask)^[k] lab v ∧ lab w ≠ 0 := by
  induction k generalizing lab with
  | zero => exact ⟨v, rfl, h⟩
  | succ k ih =>
    rw [Function.iterate_succ_apply] at h ⊢
    obtain ⟨w, hw, hw0⟩ := ih (wsStep adj mask lab) h
    obtain ⟨u, hu, hu0⟩ := wsStep_provenance adj mask lab w hw0
    exact ⟨u, by rw [hu, hw], hu0⟩

/-- The positive labels of the watershed output are exactly the positive
labels of the initial marker-in-mask labelling: flooding neither invents
nor erases a label. -/
lemma posLabels_watershed (adj : Fin n → Fin n → Bool) (mask : Fin n → Bool)
    (markers : Fin n → ℕ) :
    posLabels (watershed adj mask markers) = posLabels (initLab mask markers) := by
  ext L
  unfold posLabels watershed
  rw [Finset.mem_image, Finset.mem_image]
  constructor
  · rintro ⟨v, hv, hvL⟩
    rw [Finset.mem_filter] at hv
    obtain ⟨w, hw, hw0⟩ :=
      iterate_wsStep_provenance adj mask n (initLab mask markers) v hv.2
    refine ⟨w, ?_, by rw [hw, hvL]⟩
    rw [Finset.mem_filter]
    exact ⟨Finset.mem_univ w, hw0⟩
  · rintro ⟨v, hv, hvL⟩
    rw [Finset.mem_filter] at hv
    refine ⟨v, ?_, ?_⟩
    · rw [Finset.mem_filter]
      refine ⟨Finset.mem_univ v, ?_⟩
      rw [iterate_wsStep_stable adj mask n _ v hv.2]
      exact hv.2
    · rw [iterate_wsStep_stable adj mask n _ v hv.2]
      exact hvL

lemma compF_isolated (adj : Fin n → Fin n → Bool) (seeds : Fin n → Bool)
    (hiso : ∀ v w, seeds v = true → seeds w = true → v ≠ w → adj v w = false)
    (v : Fin n) (hv : seeds v = true) :
    compF adj seeds v = ({v} : Finset (Fin n)) := by
  have hg : grow adj seeds ({v} : Finset (Fin n)) = {v} := by
    apply Finset.Subset.antisymm
    · intro w hw
      rcases mem_grow.mp hw with h | ⟨hmw, u, hu, hadj⟩
      · exact h
      · rw [Finset.mem_singleton] at hu
        rw [hu] at hadj
        by_cases hvw : v = w
        · rw [Finset.mem_singleton]
          exact hvw.symm
        · exact absurd hadj
            (by rw [hiso v w hv hmw hvw]; exact Bool.false_ne_true)
    · exact subset_grow adj seeds _
  unfold compF
  rw [if_pos hv]
  have hiter : ∀ k, (grow adj seeds)^[k] ({v} : Finset (Fin n)) = {v} := by
    intro k
    induction k with
    | zero => rfl
    | succ k ih => rw [Function.iterate_succ_apply, hg, ih]
  exact hiter n

lemma labelRaw_isolated (adj : Fin n → Fin n → Bool) (seeds : Fin n → Bool)
    (hiso : ∀ v w, seeds v = true → seeds w = true → v ≠ w → adj v w = false)
    (v : Fin n) (hv : seeds v = true) :
    labelRaw adj seeds v = v.val + 1 := by
  unfold labelRaw
  rw [compF_isolated adj seeds hiso v hv]
  simp

lemma labelRaw_zero (adj : Fin n → Fin n → Bool) (seeds : Fin n → Bool)
    (v : Fin n) (hv : seeds v = false) : labelRaw adj seeds v = 0 := by
  unfold labelRaw compF
  rw [if_neg (by rw [hv]; exact Bool.false_ne_true)]
  simp

/-- Claim C2.  For a mask seeded with k isolated peaks (pairwise
non-adjacent seed pixels, all inside the mask), labelling the seeds and
running the marker-controlled watershed constrained to the mask yields a
label array with exactly k distinct positive labels. -/
theorem instance_segmentation_label_count (adj : Fin n → Fin n → Bool)
    (mask seeds : Fin n → Bool) (k : ℕ)
    (hiso : ∀ v w, seeds v = true → seeds w = true → v ≠ w → adj v w = false)
    (hsub : ∀ v, seeds v = true → mask v = true)
    (hk : (Finset.univ.filter (fun v => seeds v = true)).card = k) :
    (posLabels (watershed adj mask (labelRaw adj seeds))).card = k := by
  rw [posLabels_watershed]
  have hinit : ∀ v, initLab mask (labelRaw adj seeds) v = labelRaw adj seeds v := by
    intro v
    by_cases h : seeds v = true
    · simp only [initLab]
      rw [if_pos (hsub v h)]
    · have hz := labelRaw_zero adj seeds v (Bool.eq_false_iff.mpr h)
      simp only [initLab]
      rw [hz]
      by_cases hm : mask v = true
      · rw [if_pos hm]
      · rw [if_neg hm]
  have himg : posLabels (initLab mask (labelRaw adj seeds)) =
      (Finset.univ.filter (fun v => seeds v = true)).image
        (fun v : Fin n => v.val + 1) := by
    ext L
    unfold posLabels
    rw [Finset.mem_image, Finset.mem_image]
    constructor
    · rintro ⟨v, hv, hvL⟩
      rw [Finset.mem_filter] at hv
      rw [hinit v] at hv hvL
      have hs : seeds v = true := by
        by_contra hcon
        exact hv.2 (labelRaw_zero adj seeds v (Bool.eq_false_iff.mpr hcon))
      refine ⟨v, ?_, ?_⟩
      · rw [Finset.mem_filter]
        exact ⟨Finset.mem_univ v, hs⟩
      · rw [← hvL, labelRaw_isolated adj seeds hiso v hs]
    · rintro ⟨v, hv, hvL⟩
      rw [Finset.mem_filter] at hv
      refine ⟨v, ?_, ?_⟩
      · rw [Finset.mem_filter, hinit v, labelRaw_isolated adj seeds hiso v hv.2]
        exact ⟨Finset.mem_univ v, by omega⟩
      · rw [hinit v, labelRaw_isolated adj seeds hiso v hv.2]
        exact hvL
  rw [himg, Finset.card_image_of_injective _ (fun a b hab => by
    apply Fin.val_injective
    omega)]
  exact hk

/-- Claim C2, witness: a 5-pixel path with two 2-pixel blobs and one seed
in each. -/
theorem instance_segmentation_label_count_witness :
    ((∀ v w : Fin 5,
        (fun x : Fin 5 => decide (x.val = 0) || decide (x.val = 3)) v = true →
        (fun x : Fin 5 => decide (x.val = 0) || decide (x.val = 3)) w = true →
        v ≠ w →
        (fun x y : Fin 5 => decide (x.val + 1 = y.val) ||
          decide (y.val + 1 = x.val)) v w = false) ∧
      (∀ v : Fin 5,
        (fun x : Fin 5 => decide (x.val = 0) || decide (x.val = 3)) v = true →
        (fun x : Fin 5 => decide (x.val ≠ 2)) v = true) ∧
      (Finset.univ.filter (fun v : Fin 5 =>
        (fun x : Fin 5 => decide (x.val = 0) || decide (x.val = 3)) v = true)).card = 2) ∧
    (posLabels (watershed
      (fun x y : Fin 5 => decide (x.val + 1 = y.val) || decide (y.val + 1 = x.val))
      (fun x : Fin 5 => decide (x.val ≠ 2))
      (labelRaw
        (fun x y : Fin 5 => decide (x.val + 1 = y.val) || decide (y.val + 1 = x.val))
        (fun x : Fin 5 => decide (x.val = 0) || decide (x.val = 3))))).card = 2 :=
  ⟨⟨by decide, by decide, by decide⟩,
    instance_segmentation_label_count
      (fun x y : Fin 5 => decide (x.val + 1 = y.val) || decide (y.val + 1 = x.val))
      (fun x : Fin 5 => decide (x.val ≠ 2))
      (fun x : Fin 5 => decide (x.val = 0) || decide (x.val = 3))
      2 (by decide) (by decide) (by decide)⟩

lemma ws_region_step (adj : Fin n → Fin n → Bool) (mask : Fin n → Bool)
    (lab : Fin n → ℕ) (L : ℕ) (hL : L ≠ 0) (u0 : Fin n)
    (base : ∀ v, lab v = L →
      v ∈ compF adj (fun u => decide (lab u = L)) u0) :
    ∀ v, wsStep adj mask lab v = L →
      v ∈ compF adj (fun u => decide (wsStep adj mask lab u = L)) u0 := by
  have hmono : ∀ x, decide (lab x = L) = true →
      decide (wsStep adj mask lab x = L) = true := by
    intro x hx
    rw [decide_eq_true_eq] at hx
    rw [decide_eq_true_eq, wsStep_stable adj mask lab x (by rw [hx]; exact hL)]
    exact hx
  intro v hv
  unfold wsStep at hv
  by_cases hc : lab v = 0 ∧ mask v = true
  · rw [if_pos hc] at hv
    by_cases hne : (nbrLabels adj lab v).Nonempty
    · rw [dif_pos hne] at hv
      have hmem := Finset.min'_mem (nbrLabels adj lab v) hne
      rw [hv] at hmem
      unfold nbrLabels at hmem
      rw [Finset.mem_image] at hmem
      obtain ⟨w, hw, hwl⟩ := hmem
      rw [Finset.mem_filter] at hw
      have hwmem : w ∈ compF adj (fun u => decide (wsStep adj mask lab u = L)) u0 :=
        compF_mono adj hmono u0 (base w hwl)
      apply compF_closed adj _ hwmem hw.2.1
      rw [decide_eq_true_eq]
      unfold wsStep
      rw [if_pos hc, dif_pos hne]
      exact hv
    · rw [dif_neg hne] at hv
      exact absurd hv.symm hL
  · rw [if_neg hc] at hv
    exact compF_mono adj hmono u0 (base v hv)

lemma ws_region_iterate (adj : Fin n → Fin n → Bool) (mask : Fin n → Bool)
    (k : ℕ) (lab : Fin n → ℕ) (L : ℕ) (hL : L ≠ 0) (u0 : Fin n)
    (base : ∀ v, lab v = L →
      v ∈ compF adj (fun u => decide (lab u = L)) u0) :
    ∀ v, (wsStep adj mask)^[k] lab v = L →
      v ∈ compF adj
        (fun u => decide ((wsStep adj mask)^[k] lab u = L)) u0 := by
  induction k generalizing lab with
  | zero => exact base
  | succ k ih =>
    intro v hv
    rw [Function.iterate_succ_apply] at hv ⊢
    exact ih (wsStep adj mask lab)
      (ws_region_step adj mask lab L hL u0 base) v hv

/-- Claim C6.  The instance segmentation output is a label raster over the
same pixel set in which 0 is background: every pixel outside the input
mask is labelled 0, and for each positive label the set of pixels carrying
it is one connected region (any two of its pixels are connected inside it). -/
theorem instance_segmentation_raster_invariant (adj : Fin n → Fin n → Bool)
    (hsymm : ∀ a b, adj a b = adj b a) (mask seeds : Fin n → Bool)
    (hiso : ∀ v w, seeds v = true → seeds w = true → v ≠ w → adj v w = false)
    (hsub : ∀ v, seeds v = true → mask v = true) :
    (∀ v, mask v = false → watershed adj mask (labelRaw adj seeds) v = 0) ∧
    (∀ L v w, L ≠ 0 →
      watershed adj mask (labelRaw adj seeds) v = L →
      watershed adj mask (labelRaw adj seeds) w = L →
      w ∈ compF adj
        (fun u => decide (watershed adj mask (labelRaw adj seeds) u = L)) v) := by
  constructor
  · intro v hv
    unfold watershed
    rw [iterate_wsStep_outside adj mask n _ v hv]
    unfold initLab
    rw [hv]
    rfl
  · intro L v w hL hv hw
    have hvi : (wsStep adj mask)^[n] (initLab mask (labelRaw adj seeds)) v = L := hv
    have hwi : (wsStep adj mask)^[n] (initLab mask (labelRaw adj seeds)) w = L := hw
    obtain ⟨w0, hw0, hw00⟩ :=
      iterate_wsStep_provenance adj mask n (initLab mask (labelRaw adj seeds)) v
        (by rw [hvi]; exact hL)
    rw [hvi] at hw0
    have huniq : ∀ x, initLab mask (labelRaw adj seeds) x = L → x = w0 := by
      intro x hx
      have hsx : seeds x = true := by
        by_contra hcon
        have hz := labelRaw_zero adj seeds x (Bool.eq_false_iff.mpr hcon)
        unfold initLab at hx
        by_cases hm : mask x = true
        · rw [if_pos hm, hz] at hx
          exact hL hx.symm
        · rw [if_neg hm] at hx
          exact hL hx.symm
      have hsw0 : seeds w0 = true := by
        by_contra hcon
        have hz := labelRaw_zero adj seeds w0 (Bool.eq_false_iff.mpr hcon)
        unfold initLab at hw0
        by_cases hm : mask w0 = true
        · rw [if_pos hm, hz] at hw0
          exact hL hw0.symm
        · rw [if_neg hm] at hw0
          exact hL hw0.symm
      have hx2 : x.val + 1 = L := by
        unfold initLab at hx
        rw [if_pos (hsub x hsx), labelRaw_isolated adj seeds hiso x hsx] at hx
        exact hx
      have hw02 : w0.val + 1 = L := by
        unfold initLab at hw0
        rw [if_pos (hsub w0 hsw0), labelRaw_isolated adj seeds hiso w0 hsw0] at hw0
        exact hw0
      apply Fin.val_injective
      omega
    have base : ∀ x, initLab mask (labelRaw adj seeds) x = L →
        x ∈ compF adj
          (fun u => decide (initLab mask (labelRaw adj seeds) u = L)) w0 := by
      intro x hx
      rw [huniq x hx]
      apply self_mem_compF
      rw [decide_eq_true_eq]
      exact hw0
    have hv2 := ws_region_iterate adj mask n
      (initLab mask (labelRaw adj seeds)) L hL w0 base v hvi
    have hw2 := ws_region_iterate adj mask n
      (initLab mask (labelRaw adj seeds)) L hL w0 base w hwi
    have heq := compF_eq_of_mem adj
      (fun u => decide ((wsStep adj mask)^[n] (initLab mask (labelRaw adj seeds)) u = L))
      hsymm hv2
    show w ∈ compF adj
      (fun u => decide ((wsStep adj mask)^[n] (initLab mask (labelRaw adj seeds)) u = L)) v
    rw [heq]
    exact hw2

/-- Claim C6, witness: the same 5-pixel path instance as for the label
count. -/
theorem instance_segmentation_raster_invariant_witness :
    ((∀ a b : Fin 5,
        (fun x y : Fin 5 => decide (x.val + 1 = y.val) ||
          decide (y.val + 1 = x.val)) a b =
        (fun x y : Fin 5 => decide (x.val + 1 = y.val) ||
          decide (y.val + 1 = x.val)) b a) ∧
      (∀ v w : Fin 5,
        (fun x : Fin 5 => decide (x.val = 0) || decide (x.val = 3)) v = true →
        (fun x : Fin 5 => decide (x.val = 0) || decide (x.val = 3)) w = true →
        v ≠ w →
        (fun x y : Fin 5 => decide (x.val + 1 = y.val) ||
          decide (y.val + 1 = x.val)) v w = false) ∧
      (∀ v : Fin 5,
        (fun x : Fin 5 => decide (x.val = 0) || decide (x.val = 3)) v = true →
        (fun x : Fin 5 => decide (x.val ≠ 2)) v = true)) ∧
    ((∀ v : Fin 5, (fun x : Fin 5 => decide (x.val ≠ 2)) v = false →
      watershed
        (fun x y : Fin 5 => decide (x.val + 1 = y.val) || decide (y.val + 1 = x.val))
        (fun x : Fin 5 => decide (x.val ≠ 2))
        (labelRaw
          (fun x y : Fin 5 => decide (x.val + 1 = y.val) || decide (y.val + 1 = x.val))
          (fun x : Fin 5 => decide (x.val = 0) || decide (x.val = 3))) v = 0) ∧
    (∀ L (v w : Fin 5), L ≠ 0 →
      watershed
        (fun x y : Fin 5 => decide (x.val + 1 = y.val) || decide (y.val + 1 = x.val))
        (fun x : Fin 5 => decide (x.val ≠ 2))
        (labelRaw
          (fun x y : Fin 5 => decide (x.val + 1 = y.val) || decide (y.val + 1 = x.val))
          (fun x : Fin 5 => decide (x.val = 0) || decide (x.val = 3))) v = L →
      watershed
        (fun x y : Fin 5 => decide (x.val + 1 = y.val) || decide (y.val + 1 = x.val))
        (fun x : Fin 5 => decide (x.val ≠ 2))
        (labelRaw
          (fun x y : Fin 5 => decide (x.val + 1 = y.val) || decide (y.val + 1 = x.val))
          (fun x : Fin 5 => decide (x.val = 0) || decide (x.val = 3))) w = L →
      w ∈ compF
        (fun x y : Fin 5 => decide (x.val + 1 = y.val) || decide (y.val + 1 = x.val))
        (fun u => decide (watershed
          (fun x y : Fin 5 => decide (x.val + 1 = y.val) || decide (y.val + 1 = x.val))
          (fun x : Fin 5 => decide (x.val ≠ 2))
          (labelRaw
            (fun x y : Fin 5 => decide (x.val + 1 = y.val) || decide (y.val + 1 = x.val))
            (fun x : Fin 5 => decide (x.val = 0) || decide (x.val = 3))) u = L)) v)) :=
  ⟨⟨by decide, by decide, by decide⟩,
    instance_segmentation_raster_invariant
      (fun x y : Fin 5 => decide (x.val + 1 = y.val) || decide (y.val + 1 = x.val))
      (by decide)
      (fun x : Fin 5 => decide (x.val ≠ 2))
      (fun x : Fin 5 => decide (x.val = 0) || decide (x.val = 3))
      (by decide) (by decide)⟩

end PixelGraph

end NapariLessons
